import Mathlib

/-!
Shallow embedding of the InterAnnotatorAgreement repository
(`annotation.py`, `interannotatoragreement.py`).

Python strings are modelled as `List Char`, Python `set` as `Finset ℕ`,
Python exceptions as `Except PyError`.  The `Annotation` class is embedded
as the structure `Annot` (the Lean name is shortened; all field names match
the Python attributes).  All definitions are executable.
-/

namespace IAA

/-- Python whitespace characters used by `str.split()`. -/
def isWS (c : Char) : Bool :=
  c = ' ' || c = '\t' || c = '\n' || c = '\r' || c = Char.ofNat 11 || c = Char.ofNat 12

/-- Accumulator version of Python `str.split()`: splits on runs of
whitespace and drops empty pieces.  `acc` is the current word, reversed. -/
def splitWSAux : List Char → List Char → List (List Char)
  | [], acc => if acc = [] then [] else [acc.reverse]
  | c :: cs, acc =>
    if isWS c then
      if acc = [] then splitWSAux cs [] else acc.reverse :: splitWSAux cs []
    else splitWSAux cs (c :: acc)

/-- Python `text.split()`. -/
def splitWS (s : List Char) : List (List Char) := splitWSAux s []

/-- Python `word.startswith(pat)`. -/
def startsWith : List Char → List Char → Bool
  | _, [] => true
  | [], _ :: _ => false
  | c :: cs, p :: ps => c = p && startsWith cs ps

/-- Python `word.endswith(pat)`. -/
def endsWith (w pat : List Char) : Bool := startsWith w.reverse pat.reverse

/-- The punctuation characters stripped in `annotation.py` line 60:
the Python literal `",.;:-?!'\")"`. -/
def punctChars : List Char := [',', '.', ';', ':', '-', '?', '!', '\'', '"', ')']

/-- Python `word.rstrip(",.;:-?!'\")")`. -/
def rstripPunct (w : List Char) : List Char :=
  (w.reverse.dropWhile (fun c => punctChars.contains c)).reverse

/-- The closing-bracket test of `annotation.py` line 60, applied to a token. -/
def closesHere (cb : List Char) (word : List Char) : Bool :=
  endsWith (rstripPunct word) cb

/-- Python exceptions that the embedded code can raise.
`valueError` models the `ValueError` of `Annotation.__init__`;
`nameError` models the `NameError` raised when `_extract_indices`
reads the local variable `group` before it was ever assigned. -/
inductive PyError where
  | valueError : PyError
  | nameError : PyError
deriving DecidableEq, Repr

/-- The mutable local/attribute state of `Annotation._extract_indices`.
`group = none` models the Python local `group` not yet being assigned. -/
structure ExtState where
  in_brackets : Bool
  group : Option (List ℕ)
  annotated_indices : Finset ℕ
  annotated_indices_groups : List (List ℕ)
  not_annotated_indices_groups : List (List ℕ)
deriving DecidableEq

/-- One iteration of the `for num, word in enumerate(...)` loop of
`_extract_indices` (`annotation.py` lines 53-64), faithful to the order of
the three `if` statements.  The closing-bracket test runs on every token
regardless of state; appending an unassigned `group` raises `NameError`. -/
def extractStep (ob cb : List Char) (num : ℕ) (word : List Char) (st : ExtState) :
    Except PyError ExtState :=
  let st1 :=
    if startsWith word ob then { st with in_brackets := true, group := some [] } else st
  let st2res : Except PyError ExtState :=
    if st1.in_brackets then
      match st1.group with
      | some g =>
        Except.ok { st1 with annotated_indices := insert num st1.annotated_indices,
                             group := some (g ++ [num]) }
      | none => Except.error PyError.nameError
    else Except.ok st1
  match st2res with
  | Except.error e => Except.error e
  | Except.ok st2 =>
    if closesHere cb word then
      match st2.group with
      | some g =>
        Except.ok { st2 with in_brackets := false,
                             annotated_indices_groups := st2.annotated_indices_groups ++ [g] }
      | none => Except.error PyError.nameError
    else if !st2.in_brackets then
      Except.ok { st2 with
        not_annotated_indices_groups := st2.not_annotated_indices_groups ++ [[num]] }
    else Except.ok st2

/-- The whole loop of `_extract_indices`, with `num` the enumeration index. -/
def extractLoop (ob cb : List Char) : ℕ → List (List Char) → ExtState → Except PyError ExtState
  | _, [], st => Except.ok st
  | num, w :: ws, st =>
    match extractStep ob cb num w st with
    | Except.error e => Except.error e
    | Except.ok st' => extractLoop ob cb (num + 1) ws st'

/-- The `Annotation` object of `annotation.py` (class name shortened to
`Annot` in Lean; fields are the Python attributes). -/
structure Annot where
  text_split : List (List Char)
  opening_bracket : List Char
  closing_bracket : List Char
  annotated_indices : Finset ℕ
  annotated_indices_groups : List (List ℕ)
  not_annotated_indices_groups : List (List ℕ)
deriving DecidableEq

instance : Inhabited Annot := ⟨⟨[], [], [], ∅, [], []⟩⟩

/-- The state at the top of `_extract_indices`. -/
def initExtState : ExtState := ⟨false, none, ∅, [], []⟩

/-- `Annotation.__init__` (`annotation.py` lines 37-48): raises `ValueError`
exactly when the argument string is falsy, i.e. empty; otherwise splits the
text and runs `_extract_indices`. -/
def mkAnnot (text : List Char) (ob cb : List Char) : Except PyError Annot :=
  if text = [] then Except.error PyError.valueError
  else
    let toks := splitWS text
    match extractLoop ob cb 0 toks initExtState with
    | Except.error e => Except.error e
    | Except.ok st =>
      Except.ok ⟨toks, ob, cb, st.annotated_indices, st.annotated_indices_groups,
                 st.not_annotated_indices_groups⟩

/-- Default opening bracket `'['`. -/
def defOB : List Char := ['[']

/-- Default closing bracket `']'`. -/
def defCB : List Char := [']']

/-!
`InterAnnotatorAgreement` (`interannotatoragreement.py`).  The class holds
two `Annotation` objects whose `text_split` have equal length; its metric
methods are embedded as functions of the two `Annot` values.
-/

/-- Python `set.symmetric_difference`. -/
def sdiff2 (s t : Finset ℕ) : Finset ℕ := (s \ t) ∪ (t \ s)

/-- `naive_count_agreement` (lines 39-50).  Python ints are modelled as `ℤ`
(the subtraction on line 49 is an integer subtraction). -/
def naive_count_agreement (a1 a2 : Annot) : ℤ × ℤ × ℤ :=
  let same_in_bracket_count : ℤ := ((a1.annotated_indices ∩ a2.annotated_indices).card : ℤ)
  let disagree_count : ℤ := ((sdiff2 a1.annotated_indices a2.annotated_indices).card : ℤ)
  let same_not_bracket_count : ℤ :=
    (a1.text_split.length : ℤ) - same_in_bracket_count - disagree_count
  (same_in_bracket_count, same_not_bracket_count, disagree_count)

/-- `naive_accuracy` (lines 52-59).  Python float division raises
`ZeroDivisionError` on a zero denominator; that outcome is `none`. -/
def naive_accuracy (a1 a2 : Annot) : Option ℚ :=
  let counts := naive_count_agreement a1 a2
  let s := counts.1
  let sn := counts.2.1
  let d := counts.2.2
  if s + sn + d = 0 then none else some (((s + sn : ℤ) : ℚ) / ((s + sn + d : ℤ) : ℚ))

/-- `get_subgrams` (lines 115-134): all slices `g[j:i]` for `i` from
`len(g)` down to `1` and `j` from `0` to `i-1`. -/
def get_subgrams (g : List ℕ) : List (List ℕ) :=
  ((List.range g.length).reverse.map (fun k => k + 1)).flatMap
    (fun i => (List.range i).map (fun j => (g.take i).drop j))

/-- The inner `for subgram in subgrams` scan of `ngreement` (lines 87-95)
for one comparison group: returns the score contribution of that group.
Python indexes `group[0]` and `subgram[0][0]`, which presupposes nonempty
groups; `headD` returns the same value there. -/
def findScore (n : ℕ) (group : List ℕ) : List (List (List ℕ)) → ℕ
  | [] => 0
  | subgram :: rest =>
    if group.headD 0 < (subgram.headD []).headD 0 then 0
    else if group.headD 0 ∉ subgram.headD [] then findScore n group rest
    else if group ∈ subgram then group.length ^ n
    else findScore n group rest

/-- `ngreement` (lines 61-98). -/
def ngreement (indice_groups_ref indice_groups_comp : List (List ℕ)) (n : ℕ) : ℚ :=
  let subgrams := indice_groups_ref.map get_subgrams
  let max_score : ℕ := (indice_groups_ref.map (fun g => g.length ^ n)).sum
  let score : ℕ := (indice_groups_comp.map (fun g => findScore n g subgrams)).sum
  if max_score = 0 then 0 else (score : ℚ) / (max_score : ℚ)

/-- `mean_ngreement` (lines 100-113): the plain average of the four
directional scores, with no special case of any kind. -/
def mean_ngreement (a1 a2 : Annot) (n : ℕ) : ℚ :=
  let annotated_acc1 := ngreement a1.annotated_indices_groups a2.annotated_indices_groups n
  let not_annotated_acc1 :=
    ngreement a1.not_annotated_indices_groups a2.not_annotated_indices_groups n
  let annotated_acc2 := ngreement a2.annotated_indices_groups a1.annotated_indices_groups n
  let not_annotated_acc2 :=
    ngreement a2.not_annotated_indices_groups a1.not_annotated_indices_groups n
  (annotated_acc1 + annotated_acc2 + not_annotated_acc1 + not_annotated_acc2) / 4

/-- `is_compatible` (lines 202-216): the two groups share an index. -/
def is_compatible (group_ref group_comp : List ℕ) : Bool :=
  group_comp.any (fun index => decide (index ∈ group_ref))

/-- The inner `for num2, index in enumerate(group)` scan of
`_find_compatible_index_boundary`: position of the first index of the group
not contained in `group_ref`, if any. -/
def groupScan (group_ref : List ℕ) : ℕ → List ℕ → Option ℕ
  | _, [] => none
  | num2, index :: rest =>
    if index ∈ group_ref then groupScan group_ref (num2 + 1) rest else some num2

/-- The outer loop of `_find_compatible_index_boundary` (lines 226-241),
with `num1` the enumeration index.  When the loop falls off the end Python
returns `num1 + 1` for the last `num1`, i.e. the list length, which is what
the `[]` case returns here (on an empty list Python would instead raise a
`NameError`; the method is only ever called on nonempty lists). -/
def boundaryGo (group_ref : List ℕ) : ℕ → List (List ℕ) → ℕ
  | num1, [] => num1
  | num1, g :: rest =>
    match groupScan group_ref 0 g with
    | none => boundaryGo group_ref (num1 + 1) rest
    | some 0 => num1
    | some (_ + 1) => num1 + 1

/-- `_find_compatible_index_boundary` (lines 226-241). -/
def find_compatible_index_boundary (group_ref : List ℕ)
    (indices_groups_comp : List (List ℕ)) : ℕ :=
  boundaryGo group_ref 0 indices_groups_comp

/-- `_transform_groups_cost` (lines 191-200).  `ℤ`, because Python computes
`len(indices_groups_comp) - 1`, which is `-1` on an empty list. -/
def transform_groups_cost (group_ref : List ℕ) (indices_groups_comp : List (List ℕ)) : ℤ :=
  let set_ref : Finset ℕ := group_ref.toFinset
  let set_comp : Finset ℕ := indices_groups_comp.foldl (fun acc g => acc ∪ g.toFinset) ∅
  ((sdiff2 set_ref set_comp).card : ℤ) + (indices_groups_comp.length : ℤ) - 1

/-- First index of a group, Python `group[0]` (groups are nonempty wherever
the code reads this). -/
def headFst (g : List ℕ) : ℕ := g.headD 0

/-- `levenshtein` (lines 136-178), written with an explicit structural fuel
so that it is executable by the kernel.  Every recursive call of the Python
function strictly decreases `len(ref) + len(comp)`, so with
`fuel ≥ len(ref) + len(comp)` the fuel never runs out and the `fuel = 0`
catch-all clause is unreachable; `levenshtein` below supplies that fuel. -/
def levFuel : ℕ → List (List ℕ) → List (List ℕ) → ℤ
  | _, [], [] => 0
  | _, [], c :: cs => ((c :: cs).length : ℤ)
  | _, r :: rs, [] => ((r :: rs).length : ℤ)
  | 0, _ :: _, _ :: _ => 0
  | fuel + 1, r :: rs, c :: cs =>
    if r = c then levFuel fuel rs cs
    else if is_compatible r c then
      let compatible_index_boundary_in_ref := find_compatible_index_boundary c (r :: rs)
      let compatible_index_boundary_in_comp := find_compatible_index_boundary r (c :: cs)
      if compatible_index_boundary_in_ref < compatible_index_boundary_in_comp then
        transform_groups_cost r ((c :: cs).take compatible_index_boundary_in_comp) +
          levFuel fuel rs ((c :: cs).drop compatible_index_boundary_in_comp)
      else
        transform_groups_cost c ((r :: rs).take compatible_index_boundary_in_ref) +
          levFuel fuel ((r :: rs).drop compatible_index_boundary_in_ref) cs
    else
      if headFst r < headFst c then 1 + levFuel fuel rs (c :: cs)
      else 1 + levFuel fuel (r :: rs) cs

/-- `levenshtein` (lines 136-178). -/
def levenshtein (indices_groups_ref indices_groups_comp : List (List ℕ)) : ℤ :=
  levFuel (indices_groups_ref.length + indices_groups_comp.length)
    indices_groups_ref indices_groups_comp

/-- `levenshtein_incl_normalized` (lines 180-189).  Python divides by
`(markable_count1 + markable_count2) / 2`, raising `ZeroDivisionError`
(`none` here) when both annotations have no annotated group. -/
def levenshtein_incl_normalized (a1 a2 : Annot) : Option (ℤ × ℚ) :=
  let distance := levenshtein a1.annotated_indices_groups a2.annotated_indices_groups
  let markable_count1 := a1.annotated_indices_groups.length
  let markable_count2 := a2.annotated_indices_groups.length
  if markable_count1 + markable_count2 = 0 then none
  else
    some (distance,
      (distance : ℚ) / (((markable_count1 : ℚ) + (markable_count2 : ℚ)) / 2))

/-- Modelled from the spec: section 4.4 describes the normalized form as
`distance / max(len(ref_groups), len(comp_groups))`.  This definition follows
the spec's words, for comparison with `levenshtein_incl_normalized`, which is
the definition translated from the source. -/
def normalized_per_spec (distance : ℤ) (m1 m2 : ℕ) : ℚ :=
  (distance : ℚ) / ((max m1 m2 : ℕ) : ℚ)

/-!
Specification predicates about extraction output.
-/

/-- A list of groups is sorted (non-strictly) ascending by first index. -/
def headsLe (l : List (List ℕ)) : Prop :=
  List.Chain' (fun g h => headFst g ≤ headFst h) l

/-- All groups of an `Annot`, annotated first, as read by the partition
invariant of the spec. -/
def allG (a : Annot) : List (List ℕ) :=
  a.annotated_indices_groups ++ a.not_annotated_indices_groups

/-- How many times (with multiplicity) index `i` occurs across a list of
groups. -/
def coverCount (groups : List (List ℕ)) (i : ℕ) : ℕ :=
  (groups.map (fun g => g.count i)).sum

/-- The groups are pairwise disjoint. -/
def disjointGroups (groups : List (List ℕ)) : Prop :=
  groups.Pairwise (fun g h => ∀ x ∈ g, x ∉ h)

/-- The partition invariant claimed by the spec for extraction output:
every token index below the token count occurs exactly once across the
annotated and non-annotated groups and no other index occurs at all, the
groups are pairwise disjoint, and each of the two lists is sorted ascending
by first index. -/
def partitionOK (a : Annot) : Prop :=
  (∀ i : ℕ, coverCount (allG a) i = if i < a.text_split.length then 1 else 0) ∧
  disjointGroups (allG a) ∧
  headsLe a.annotated_indices_groups ∧ headsLe a.not_annotated_indices_groups

/-- Well-bracketed token sequences, tracking the `in_brackets` state:
no token opens a group while one is already open, the closing-bracket test
never fires while no group is open, and no group is left open at the end.
These are exactly the token sequences on which `_extract_indices` behaves
like the two-state machine described by the spec. -/
def wfTokens (ob cb : List Char) : Bool → List (List Char) → Bool
  | inB, [] => !inB
  | inB, w :: ws =>
    if startsWith w ob then
      if inB then false
      else if closesHere cb w then wfTokens ob cb false ws
      else wfTokens ob cb true ws
    else
      if closesHere cb w then inB && wfTokens ob cb false ws
      else wfTokens ob cb inB ws

/-- A group that is a nonempty ascending contiguous run of indices, the
shape every markable produced by well-bracketed extraction has. -/
def IsIntervalG (g : List ℕ) : Prop :=
  g ≠ [] ∧ g = List.range' (headFst g) g.length

instance : DecidablePred IsIntervalG := fun g =>
  inferInstanceAs (Decidable (g ≠ [] ∧ g = List.range' (headFst g) g.length))

/-!
Concrete inputs used by counterexamples and witnesses.
-/

instance {ε α : Type} [DecidableEq ε] [DecidableEq α] : DecidableEq (Except ε α) := fun x y =>
  match x, y with
  | Except.ok a, Except.ok b =>
    if h : a = b then isTrue (by rw [h]) else isFalse (by simp [h])
  | Except.error e, Except.error f =>
    if h : e = f then isTrue (by rw [h]) else isFalse (by simp [h])
  | Except.ok _, Except.error _ => isFalse (by simp)
  | Except.error _, Except.ok _ => isFalse (by simp)

/-- The text `"a"`. -/
def txtA : List Char := ['a']

/-- The text `"a b"`. -/
def txtAB : List Char := ['a', ' ', 'b']

/-- The text `"[a]"`. -/
def txtBr : List Char := ['[', 'a', ']']

/-- The text `"[a] b] c"`: a stray closing bracket after a closed markable. -/
def txtC3 : List Char := ['[', 'a', ']', ' ', 'b', ']', ' ', 'c']

/-- The text `"x]."`: its first token ends (after stripping the trailing
`'.'`) with the closing bracket without ever opening one. -/
def txtX : List Char := ['x', ']', '.']

/-- The whitespace-only text `" "`. -/
def txtWS : List Char := [' ']

/-- The text `"[a] b c"`. -/
def txtT1 : List Char := ['[', 'a', ']', ' ', 'b', ' ', 'c']

/-- The text `"[a] [b] c"`. -/
def txtT2 : List Char := ['[', 'a', ']', ' ', '[', 'b', ']', ' ', 'c']

/-- The text `"[a] b"`. -/
def txtW : List Char := ['[', 'a', ']', ' ', 'b']

/-- Extraction output for `txtA`. -/
def annA : Annot := ⟨[['a']], defOB, defCB, ∅, [], [[0]]⟩

/-- Extraction output for `txtAB`. -/
def annAB : Annot := ⟨[['a'], ['b']], defOB, defCB, ∅, [], [[0], [1]]⟩

/-- Extraction output for `txtBr`. -/
def annBr : Annot := ⟨[['[', 'a', ']']], defOB, defCB, {0}, [[0]], []⟩

/-- Extraction output for `txtC3`: the group `[0]` is appended twice and
token index `1` occurs in no group. -/
def annC3 : Annot := ⟨[['[', 'a', ']'], ['b', ']'], ['c']], defOB, defCB, {0}, [[0], [0]], [[2]]⟩

/-- Extraction output for `txtWS`: zero tokens. -/
def annWS : Annot := ⟨[], defOB, defCB, ∅, [], []⟩

/-- Extraction output for `txtT1`. -/
def annT1 : Annot := ⟨[['[', 'a', ']'], ['b'], ['c']], defOB, defCB, {0}, [[0]], [[1], [2]]⟩

/-- Extraction output for `txtT2`. -/
def annT2 : Annot :=
  ⟨[['[', 'a', ']'], ['[', 'b', ']'], ['c']], defOB, defCB, insert 1 {0}, [[0], [1]], [[2]]⟩

/-- Extraction output for `txtW`. -/
def annW : Annot := ⟨[['[', 'a', ']'], ['b']], defOB, defCB, {0}, [[0]], [[1]]⟩

/-- `groups1` from the spec's §8 examples (and `main` of
`interannotatoragreement.py`). -/
def groups1 : List (List ℕ) := [[0], [3], [9], [13], [16], [19], [20], [23], [24, 25]]

/-- `groups2` from the spec's §8 examples. -/
def groups2 : List (List ℕ) := [[0], [3], [9], [13], [16], [19], [20], [23], [25]]

/-- `groups2b` from the spec's §8 examples. -/
def groups2b : List (List ℕ) :=
  [[0], [3], [9], [13], [16], [19, 20], [23], [24, 25, 26], [27]]

/-!
Invariants of the extraction loop.  `GInv` holds for every successful run
of `_extract_indices`, with or without well-bracketing; it records that all
emitted groups are nonempty, bounded by the number of processed tokens, and
appended in non-decreasing order of first index, and tracks the state of
the `group` local variable.
-/

theorem headFst_mem {g : List ℕ} (h : g ≠ []) : headFst g ∈ g := by
  cases g with
  | nil => exact absurd rfl h
  | cons a l => exact List.mem_cons_self a l

theorem headFst_append {g l : List ℕ} (h : g ≠ []) : headFst (g ++ l) = headFst g := by
  cases g with
  | nil => exact absurd rfl h
  | cons a t => rfl

theorem headsLe_le_getLast {l : List (List ℕ)} {g : List ℕ} (hl : headsLe l)
    (hlast : l.getLast? = some g) : ∀ gg ∈ l, headFst gg ≤ headFst g := by
  induction l with
  | nil => simp at hlast
  | cons a t ih =>
    cases t with
    | nil =>
      simp only [List.getLast?_singleton, Option.some.injEq] at hlast
      subst hlast
      intro gg hgg
      simp only [List.mem_singleton] at hgg
      subst hgg
      exact le_refl _
    | cons b t' =>
      have hl2 := List.chain'_cons.mp hl
      have hlast' : (b :: t').getLast? = some g := by
        rw [← hlast]; rfl
      intro gg hgg
      rcases List.mem_cons.mp hgg with hgg | hgg
      · subst hgg
        exact le_trans hl2.1 (ih hl2.2 hlast' b (List.mem_cons_self b t'))
      · exact ih hl2.2 hlast' gg hgg

theorem headsLe_concat {l : List (List ℕ)} {g : List ℕ} (hl : headsLe l)
    (h : ∀ gg ∈ l, headFst gg ≤ headFst g) : headsLe (l ++ [g]) := by
  refine List.chain'_append.mpr ⟨hl, List.chain'_singleton g, ?_⟩
  intro x hx y hy
  simp only [List.head?_cons, Option.mem_def, Option.some.injEq] at hy
  exact hy ▸ h x (List.mem_of_mem_getLast? hx)

/-- The invariant maintained by every successful `_extract_indices` run. -/
structure GInv (num : ℕ) (st : ExtState) : Prop where
  ne : ∀ g ∈ st.annotated_indices_groups ++ st.not_annotated_indices_groups, g ≠ []
  bdd : ∀ g ∈ st.annotated_indices_groups ++ st.not_annotated_indices_groups, ∀ x ∈ g, x < num
  sortAnn : headsLe st.annotated_indices_groups
  sortNot : headsLe st.not_annotated_indices_groups
  idxBdd : st.annotated_indices ⊆ Finset.range num
  openInv : st.in_brackets = true → ∃ g, st.group = some g ∧ g ≠ [] ∧ (∀ x ∈ g, x < num) ∧
    ∀ gg ∈ st.annotated_indices_groups ++ st.not_annotated_indices_groups,
      ∀ x ∈ gg, x < headFst g
  staleInv : st.in_brackets = false → ∀ g, st.group = some g →
    st.annotated_indices_groups.getLast? = some g

theorem GInv_init : GInv 0 initExtState := by
  refine ⟨?_, ?_, ?_, ?_, ?_, ?_, ?_⟩ <;> simp [initExtState, headsLe]

theorem extractStep_GInv {ob cb : List Char} {num : ℕ} {word : List Char}
    {st st' : ExtState} (h : extractStep ob cb num word st = Except.ok st')
    (hinv : GInv num st) : GInv (num + 1) st' := by
  obtain ⟨hne, hbdd, hsa, hsn, hib, hopen, hstale⟩ := hinv
  have memA : ∀ {g : List ℕ}, g ∈ st.annotated_indices_groups →
      g ∈ st.annotated_indices_groups ++ st.not_annotated_indices_groups :=
    fun hg => List.mem_append.mpr (Or.inl hg)
  have memN : ∀ {g : List ℕ}, g ∈ st.not_annotated_indices_groups →
      g ∈ st.annotated_indices_groups ++ st.not_annotated_indices_groups :=
    fun hg => List.mem_append.mpr (Or.inr hg)
  have hibSucc : st.annotated_indices ⊆ Finset.range (num + 1) := fun x hx =>
    Finset.mem_range.mpr (Nat.lt_succ_of_lt (Finset.mem_range.mp (hib hx)))
  have hinsSucc : insert num st.annotated_indices ⊆ Finset.range (num + 1) := by
    intro x hx
    rcases Finset.mem_insert.mp hx with hx | hx
    · exact Finset.mem_range.mpr (by omega)
    · exact hibSucc hx
  by_cases hs : startsWith word ob = true
  · by_cases hc : closesHere cb word = true
    · -- open and close on the same token: single-token markable [num]
      simp [extractStep, hs, hc] at h
      subst h
      refine ⟨?_, ?_, ?_, hsn, hinsSucc, by simp, ?_⟩
      · intro g hg
        simp only [List.append_assoc, List.mem_append, List.mem_singleton] at hg
        rcases hg with hg | hg | hg
        · exact hne g (memA hg)
        · subst hg; simp
        · exact hne g (memN hg)
      · intro g hg x hx
        simp only [List.append_assoc, List.mem_append, List.mem_singleton] at hg
        rcases hg with hg | hg | hg
        · exact Nat.lt_succ_of_lt (hbdd g (memA hg) x hx)
        · subst hg
          simp only [List.mem_singleton] at hx
          omega
        · exact Nat.lt_succ_of_lt (hbdd g (memN hg) x hx)
      · refine headsLe_concat hsa ?_
        intro gg hgg
        exact Nat.le_of_lt (hbdd gg (memA hgg) (headFst gg) (headFst_mem (hne gg (memA hgg))))
      · intro _ g hg
        simp only [Option.some.injEq] at hg
        exact hg ▸ List.getLast?_concat _
    · -- open without closing: now INSIDE with group [num]
      have hc' : closesHere cb word = false := by simpa using hc
      simp [extractStep, hs, hc'] at h
      subst h
      refine ⟨hne, ?_, hsa, hsn, hinsSucc, ?_, by simp⟩
      · exact fun g hg x hx => Nat.lt_succ_of_lt (hbdd g hg x hx)
      · intro _
        refine ⟨[num], rfl, by simp, ?_, ?_⟩
        · intro x hx
          simp only [List.mem_singleton] at hx
          omega
        · intro gg hgg x hx
          simpa [headFst] using hbdd gg hgg x hx
  · have hs' : startsWith word ob = false := by simpa using hs
    by_cases hb : st.in_brackets = true
    · -- INSIDE: append num to the open group
      obtain ⟨g, hg, hgne, hglt, hgheads⟩ := hopen hb
      by_cases hc : closesHere cb word = true
      · simp [extractStep, hs', hb, hg, hc] at h
        subst h
        refine ⟨?_, ?_, ?_, hsn, hinsSucc, by simp, ?_⟩
        · intro gg hgg
          simp only [List.append_assoc, List.mem_append, List.mem_singleton] at hgg
          rcases hgg with hgg | hgg | hgg
          · exact hne gg (memA hgg)
          · subst hgg; simp [hgne]
          · exact hne gg (memN hgg)
        · intro gg hgg x hx
          simp only [List.append_assoc, List.mem_append, List.mem_singleton] at hgg
          rcases hgg with hgg | hgg | hgg
          · exact Nat.lt_succ_of_lt (hbdd gg (memA hgg) x hx)
          · subst hgg
            rcases List.mem_append.mp hx with hx | hx
            · exact Nat.lt_succ_of_lt (hglt x hx)
            · simp only [List.mem_singleton] at hx
              omega
          · exact Nat.lt_succ_of_lt (hbdd gg (memN hgg) x hx)
        · refine headsLe_concat hsa ?_
          intro gg hgg
          have hlt := hgheads gg (memA hgg) (headFst gg) (headFst_mem (hne gg (memA hgg)))
          rw [headFst_append hgne]
          exact Nat.le_of_lt hlt
        · intro _ gg hgg
          simp only [Option.some.injEq] at hgg
          exact hgg ▸ List.getLast?_concat _
      · have hc' : closesHere cb word = false := by simpa using hc
        simp [extractStep, hs', hb, hg, hc'] at h
        subst h
        refine ⟨hne, ?_, hsa, hsn, hinsSucc, ?_, by simp [hb]⟩
        · exact fun gg hgg x hx => Nat.lt_succ_of_lt (hbdd gg hgg x hx)
        · intro _
          refine ⟨g ++ [num], rfl, by simp, ?_, ?_⟩
          · intro x hx
            rcases List.mem_append.mp hx with hx | hx
            · exact Nat.lt_succ_of_lt (hglt x hx)
            · simp only [List.mem_singleton] at hx
              omega
          · intro gg hgg x hx
            rw [headFst_append hgne]
            exact hgheads gg hgg x hx
    · -- OUTSIDE
      have hb' : st.in_brackets = false := by
        cases hbv : st.in_brackets
        · rfl
        · exact absurd hbv hb
      by_cases hc : closesHere cb word = true
      · -- stray closing bracket: double append of the stale group
        cases hgv : st.group with
        | none => simp [extractStep, hs', hb', hgv, hc] at h
        | some g =>
          simp [extractStep, hs', hb', hgv, hc] at h
          subst h
          have hlast := hstale hb' g hgv
          have hgmem : g ∈ st.annotated_indices_groups := List.mem_of_mem_getLast? hlast
          refine ⟨?_, ?_, ?_, hsn, hibSucc, by simp, ?_⟩
          · intro gg hgg
            simp only [List.append_assoc, List.mem_append, List.mem_singleton] at hgg
            rcases hgg with hgg | hgg | hgg
            · exact hne gg (memA hgg)
            · exact hgg ▸ hne g (memA hgmem)
            · exact hne gg (memN hgg)
          · intro gg hgg x hx
            simp only [List.append_assoc, List.mem_append, List.mem_singleton] at hgg
            rcases hgg with hgg | hgg | hgg
            · exact Nat.lt_succ_of_lt (hbdd gg (memA hgg) x hx)
            · exact Nat.lt_succ_of_lt (hbdd g (memA hgmem) x (hgg ▸ hx))
            · exact Nat.lt_succ_of_lt (hbdd gg (memN hgg) x hx)
          · exact headsLe_concat hsa (headsLe_le_getLast hsa hlast)
          · intro _ gg hgg
            simp only [Option.some.injEq] at hgg
            exact hgg ▸ List.getLast?_concat _
      · -- plain unannotated token: emit singleton [num]
        have hc' : closesHere cb word = false := by simpa using hc
        simp [extractStep, hs', hb', hc'] at h
        subst h
        refine ⟨?_, ?_, hsa, ?_, hibSucc, by simp [hb'], ?_⟩
        · intro gg hgg
          simp only [List.mem_append, List.mem_singleton] at hgg
          rcases hgg with hgg | hgg | hgg
          · exact hne gg (memA hgg)
          · exact hne gg (memN hgg)
          · subst hgg; simp
        · intro gg hgg x hx
          simp only [List.mem_append, List.mem_singleton] at hgg
          rcases hgg with hgg | hgg | hgg
          · exact Nat.lt_succ_of_lt (hbdd gg (memA hgg) x hx)
          · exact Nat.lt_succ_of_lt (hbdd gg (memN hgg) x hx)
          · subst hgg
            simp only [List.mem_singleton] at hx
            omega
        · refine headsLe_concat hsn ?_
          intro gg hgg
          exact Nat.le_of_lt (hbdd gg (memN hgg) (headFst gg) (headFst_mem (hne gg (memN hgg))))
        · intro _ gg hgg
          exact hstale hb' gg hgg


theorem extractLoop_GInv {ob cb : List Char} :
    ∀ (ws : List (List Char)) (num : ℕ) (st st' : ExtState),
      extractLoop ob cb num ws st = Except.ok st' → GInv num st →
      GInv (num + ws.length) st'
  | [], num, st, st', h, hinv => by
    simp only [extractLoop, Except.ok.injEq] at h
    simpa [← h] using hinv
  | w :: ws, num, st, st', h, hinv => by
    simp only [extractLoop] at h
    cases hstep : extractStep ob cb num w st with
    | error e => rw [hstep] at h; exact absurd h (by simp)
    | ok st1 =>
      rw [hstep] at h
      have h1 := extractStep_GInv hstep hinv
      have h2 := extractLoop_GInv ws (num + 1) st1 st' h h1
      have harith : num + 1 + ws.length = num + (w :: ws).length := by
        simp [List.length_cons]
        omega
      exact harith ▸ h2

/-- Every successfully constructed Annot satisfies the structural
invariants: its groups are nonempty, bounded by the token count, and each
list is sorted (non-strictly) ascending by first index; the annotated-index
set is bounded by the token count. -/
theorem mkAnnot_GInv {text ob cb : List Char} {a : Annot}
    (h : mkAnnot text ob cb = Except.ok a) :
    (∀ g ∈ a.annotated_indices_groups ++ a.not_annotated_indices_groups, g ≠ []) ∧
    (∀ g ∈ a.annotated_indices_groups ++ a.not_annotated_indices_groups,
      ∀ x ∈ g, x < a.text_split.length) ∧
    headsLe a.annotated_indices_groups ∧ headsLe a.not_annotated_indices_groups ∧
    a.annotated_indices ⊆ Finset.range a.text_split.length := by
  by_cases ht : text = []
  · simp [mkAnnot, ht] at h
  · simp only [mkAnnot, ht, if_neg, if_false, ite_false] at h
    cases hE : extractLoop ob cb 0 (splitWS text) initExtState with
    | error e => rw [hE] at h; exact absurd h (by simp)
    | ok st =>
      rw [hE] at h
      rw [Except.ok.injEq] at h
      have hinv := extractLoop_GInv (splitWS text) 0 initExtState st hE GInv_init
      rw [Nat.zero_add] at hinv
      subst h
      exact ⟨hinv.ne, hinv.bdd, hinv.sortAnn, hinv.sortNot, hinv.idxBdd⟩


/-!
`ngreement` of a group list against itself.
-/

theorem headD_mem {g : List ℕ} (h : g ≠ []) : g.headD 0 ∈ g := headFst_mem h

theorem head?_get_subgrams (a : ℕ) (as : List ℕ) :
    (get_subgrams (a :: as)).head? = some (a :: as) := by
  rw [get_subgrams]
  rw [List.length_cons, List.range_succ, List.reverse_append, List.reverse_singleton,
    List.singleton_append, List.map_cons, List.flatMap_cons, List.range_succ_eq_map,
    List.map_cons, List.drop_zero]
  rw [show (a :: as).take (as.length + 1) = a :: as from by
    rw [← List.length_cons a as]
    exact List.take_length _]
  rfl

theorem headD_get_subgrams {g : List ℕ} (h : g ≠ []) : (get_subgrams g).headD [] = g := by
  cases g with
  | nil => exact absurd rfl h
  | cons a as =>
    have hh := head?_get_subgrams a as
    cases hgs : get_subgrams (a :: as) with
    | nil => rw [hgs] at hh; simp at hh
    | cons b t =>
      rw [hgs] at hh
      simp only [List.head?_cons, Option.some.injEq] at hh
      simpa using hh

theorem mem_get_subgrams_self {g : List ℕ} (h : g ≠ []) : g ∈ get_subgrams g := by
  cases g with
  | nil => exact absurd rfl h
  | cons a as =>
    have hh := head?_get_subgrams a as
    cases hgs : get_subgrams (a :: as) with
    | nil => rw [hgs] at hh; simp at hh
    | cons b t =>
      rw [hgs] at hh
      simp only [List.head?_cons, Option.some.injEq] at hh
      rw [← hh]
      exact List.mem_cons_self _ _

theorem findScore_eq (n : ℕ) (gi : List ℕ) (hgi : gi ≠ []) :
    ∀ (l₁ l₂ : List (List ℕ)), (∀ gg ∈ l₁, gg ≠ [] ∧ gg.headD 0 ≤ gi.headD 0) →
      findScore n gi ((l₁ ++ gi :: l₂).map get_subgrams) = gi.length ^ n
  | [], l₂, _ => by
    rw [List.nil_append, List.map_cons, findScore, headD_get_subgrams hgi]
    rw [if_neg (lt_irrefl _), if_neg (not_not_intro (headD_mem hgi)),
      if_pos (mem_get_subgrams_self hgi)]
  | gg :: l₁, l₂, h => by
    have hgg := h gg (List.mem_cons_self gg l₁)
    have ih := findScore_eq n gi hgi l₁ l₂ (fun x hx => h x (List.mem_cons_of_mem gg hx))
    rw [List.cons_append, List.map_cons, findScore, headD_get_subgrams hgg.1]
    rw [if_neg (not_lt_of_le hgg.2)]
    by_cases hmem : gi.headD 0 ∈ gg
    · rw [if_neg (not_not_intro hmem)]
      by_cases hsub : gi ∈ get_subgrams gg
      · rw [if_pos hsub]
      · rw [if_neg hsub]
        exact ih
    · rw [if_pos hmem]
      exact ih

instance : IsTrans (List ℕ) (fun g g' => headFst g ≤ headFst g') :=
  ⟨fun _ _ _ h1 h2 => le_trans h1 h2⟩

theorem headsLe_pairwise {l : List (List ℕ)} (h : headsLe l) :
    l.Pairwise (fun g g' => headFst g ≤ headFst g') :=
  List.chain'_iff_pairwise.mp h

theorem findScore_self (n : ℕ) (l : List (List ℕ)) (hne : ∀ g ∈ l, g ≠ [])
    (hsort : headsLe l) :
    ∀ gi ∈ l, findScore n gi (l.map get_subgrams) = gi.length ^ n := by
  intro gi hmem
  obtain ⟨l₁, l₂, rfl⟩ := List.append_of_mem hmem
  apply findScore_eq n gi (hne gi hmem) l₁ l₂
  intro gg hgg
  refine ⟨hne gg (by simp [hgg]), ?_⟩
  have hp := headsLe_pairwise hsort
  have hle := (List.pairwise_append.mp hp).2.2 gg hgg gi (List.mem_cons_self gi l₂)
  simpa [headFst] using hle

theorem ngreement_self (n : ℕ) {l : List (List ℕ)} (hl : l ≠ [])
    (hne : ∀ g ∈ l, g ≠ []) (hsort : headsLe l) : ngreement l l n = 1 := by
  have hscore : (l.map (fun g => findScore n g (l.map get_subgrams))).sum
      = (l.map (fun g => g.length ^ n)).sum := by
    apply congrArg List.sum
    apply List.map_congr_left
    exact findScore_self n l hne hsort
  have hpos : 0 < (l.map (fun g => g.length ^ n)).sum := by
    cases l with
    | nil => exact absurd rfl hl
    | cons a t =>
      have ha : 0 < a.length ^ n :=
        pow_pos (List.length_pos.mpr (hne a (List.mem_cons_self a t))) n
      calc 0 < a.length ^ n := ha
        _ ≤ a.length ^ n + (t.map (fun g => g.length ^ n)).sum := Nat.le_add_right _ _
        _ = ((a :: t).map (fun g => g.length ^ n)).sum := by rw [List.map_cons, List.sum_cons]
  have hne0 : (l.map (fun g => g.length ^ n)).sum ≠ 0 := by omega
  rw [ngreement]
  simp only [hscore]
  rw [if_neg hne0]
  exact div_self (Nat.cast_ne_zero.mpr hne0)


/-!
Concrete-input theorems: counterexamples and example claims.
-/

/-- C1 counterexample: both annotations of the agreement pair built from the
text `"a"` have zero annotated groups, yet `mean_ngreement` (n = 2) returns
`0.5`, not the claimed override `1.0`: the two annotated-side directional
scores default to `0.0` and the two non-annotated-side scores are `1.0`. -/
theorem C1_counterexample :
    mkAnnot txtA defOB defCB = Except.ok annA ∧
    annA.annotated_indices_groups = [] ∧
    mean_ngreement annA annA 2 = 1 / 2 ∧ ((1 : ℚ) / 2 ≠ 1) := by
  refine ⟨by decide, by decide, ?_, by norm_num⟩
  norm_num [mean_ngreement, ngreement, findScore, get_subgrams, List.range_succ, annA]

/-- C2 counterexample: for the pair built from `"[a] b c"` and
`"[a] [b] c"` the code returns the normalized distance
`1 / ((1 + 2) / 2) = 2/3`, while the claimed formula
`distance / max(len(ref_groups), len(comp_groups))` gives `1/2`. -/
theorem C2_counterexample :
    mkAnnot txtT1 defOB defCB = Except.ok annT1 ∧
    mkAnnot txtT2 defOB defCB = Except.ok annT2 ∧
    annT1.text_split.length = annT2.text_split.length ∧
    levenshtein_incl_normalized annT1 annT2 = some (1, 2 / 3) ∧
    normalized_per_spec 1 annT1.annotated_indices_groups.length
      annT2.annotated_indices_groups.length = 1 / 2 ∧
    ((2 : ℚ) / 3 ≠ 1 / 2) := by
  have h : levenshtein [[0]] [[0], [1]] = 1 := by decide
  refine ⟨by decide, by decide, by decide, ?_, ?_, by norm_num⟩
  · norm_num [levenshtein_incl_normalized, annT1, annT2, h]
  · norm_num [normalized_per_spec, annT1, annT2]

/-- C3 counterexample: the text `"[a] b] c"` is non-empty and extraction
succeeds, but its stray closing bracket makes `_extract_indices` append the
group `[0]` a second time and classify token index `1` into no group at
all, so the output does not partition the token indices. -/
theorem C3_counterexample :
    mkAnnot txtC3 defOB defCB = Except.ok annC3 ∧
    annC3.annotated_indices_groups = [[0], [0]] ∧
    annC3.not_annotated_indices_groups = [[2]] ∧
    ¬ partitionOK annC3 := by
  refine ⟨by decide, by decide, by decide, fun h => ?_⟩
  have h1 := h.1 1
  revert h1
  decide

/-- C4 counterexample: the text `" "` is whitespace-only (it splits into
zero tokens), yet the constructor does not fail — it returns an Annot with
an empty token list — because the Python check `if not text` only catches
the empty string. -/
theorem C4_counterexample :
    splitWS txtWS = [] ∧ mkAnnot txtWS defOB defCB = Except.ok annWS := by
  exact ⟨by decide, by decide⟩

/-- C5 counterexample: on the agreement pair built from `"a b"` twice, both
annotations have zero annotated groups and `levenshtein_incl_normalized`
divides by `(0 + 0) / 2`, raising `ZeroDivisionError` (modelled as `none`)
instead of returning a numeric default. -/
theorem C5_counterexample :
    mkAnnot txtAB defOB defCB = Except.ok annAB ∧
    annAB.annotated_indices_groups = [] ∧
    levenshtein_incl_normalized annAB annAB = none := by
  exact ⟨by decide, by decide, rfl⟩

/-- C6 counterexample: the sequences `[[0,5]]` and `[[1,2,5]]` are each
sorted ascending by first index, but the distance is 3 in one direction and
2 in the other, refuting symmetry as claimed: both leading groups' first
indices are missing from the other group, so both compatibility boundaries
are 0 and rule 4 consumes an empty prefix, asymmetrically. -/
theorem C6_counterexample :
    headsLe [[0, 5]] ∧ headsLe [[1, 2, 5]] ∧
    levenshtein [[0, 5]] [[1, 2, 5]] = 3 ∧
    levenshtein [[1, 2, 5]] [[0, 5]] = 2 ∧ ((3 : ℤ) ≠ 2) := by
  refine ⟨?_, ?_, by decide, by decide, by decide⟩
  · exact List.chain'_singleton _
  · exact List.chain'_singleton _

/-- C7 counterexample: both Annotations are built from the same text
`"[a]"` with the default brackets, but `mean_ngreement` (n = 2) is `0.5`,
not `1.0`: the non-annotated group list is empty, so the two non-annotated
directional scores default to `0.0`. -/
theorem C7_counterexample :
    mkAnnot txtBr defOB defCB = Except.ok annBr ∧
    mean_ngreement annBr annBr 2 = 1 / 2 ∧ ((1 : ℚ) / 2 ≠ 1) := by
  refine ⟨by decide, ?_, by norm_num⟩
  norm_num [mean_ngreement, ngreement, findScore, get_subgrams, List.range_succ, annBr]

/-- C8 counterexample: the pair built from the whitespace-only text `" "`
twice has zero tokens, and `naive_accuracy` divides by zero
(`ZeroDivisionError`, modelled as `none`) instead of producing a value in
`[0,1]`. -/
theorem C8_counterexample :
    mkAnnot txtWS defOB defCB = Except.ok annWS ∧
    annWS.text_split.length = 0 ∧
    naive_accuracy annWS annWS = none := by
  exact ⟨by decide, rfl, rfl⟩

/-- C9 counterexample: on `groups1` and `groups2b` the code computes
distance 3, not the 2 the spec example states (the `[24,25]` vs
`[24,25,26]` step costs 2: one index edit plus the leftover `[27]`). -/
theorem C9_counterexample :
    levenshtein groups1 groups2b = 3 ∧ ((3 : ℤ) ≠ 2) := by
  exact ⟨by decide, by decide⟩

/-- C9 (amended): the first spec example holds, `levenshtein groups1
groups2 = 1`; the second computes to 3 rather than 2. -/
theorem C9_distances :
    levenshtein groups1 groups2 = 1 ∧ levenshtein groups1 groups2b = 3 := by
  exact ⟨by decide, by decide⟩

/-- C10: the closing-bracket test of `_extract_indices` runs on every token
regardless of the OUTSIDE/INSIDE state.  For the text `"x]."` — whose first
token ends with `]` after stripping the trailing `'.'` and does not start
with `[` — construction reaches the group-append statement with the local
`group` never assigned and raises `NameError`; and for `"[a] b] c"` the
stray `"b]"` token, encountered OUTSIDE after a closed markable, appends
the previous group `[0]` to the annotated-groups list a second time. -/
theorem C10_closing_check :
    startsWith ['x', ']', '.'] defOB = false ∧
    closesHere defCB ['x', ']', '.'] = true ∧
    mkAnnot txtX defOB defCB = Except.error PyError.nameError ∧
    mkAnnot txtC3 defOB defCB = Except.ok annC3 ∧
    annC3.annotated_indices_groups = [[0], [0]] := by
  exact ⟨by decide, by decide, by decide, by decide, by decide⟩


theorem extractStep_error {ob cb : List Char} {num : ℕ} {word : List Char}
    {st : ExtState} {e : PyError}
    (h : extractStep ob cb num word st = Except.error e) : e = PyError.nameError := by
  by_cases hs : startsWith word ob = true
  · by_cases hc : closesHere cb word = true
    · simp [extractStep, hs, hc] at h
    · have hc' : closesHere cb word = false := by simpa using hc
      simp [extractStep, hs, hc'] at h
  · have hs' : startsWith word ob = false := by simpa using hs
    by_cases hb : st.in_brackets = true
    · cases hg : st.group with
      | none =>
        simp [extractStep, hs', hb, hg] at h
        exact h.symm
      | some g =>
        by_cases hc : closesHere cb word = true
        · simp [extractStep, hs', hb, hg, hc] at h
        · have hc' : closesHere cb word = false := by simpa using hc
          simp [extractStep, hs', hb, hg, hc'] at h
    · have hb' : st.in_brackets = false := by
        cases hbv : st.in_brackets
        · rfl
        · exact absurd hbv hb
      by_cases hc : closesHere cb word = true
      · cases hg : st.group with
        | none =>
          simp [extractStep, hs', hb', hg, hc] at h
          exact h.symm
        | some g => simp [extractStep, hs', hb', hg, hc] at h
      · have hc' : closesHere cb word = false := by simpa using hc
        simp [extractStep, hs', hb', hc'] at h

theorem extractLoop_error {ob cb : List Char} :
    ∀ {ws : List (List Char)} {num : ℕ} {st : ExtState} {e : PyError},
      extractLoop ob cb num ws st = Except.error e → e = PyError.nameError
  | [], _, _, _, h => by simp [extractLoop] at h
  | w :: ws, num, st, e, h => by
    simp only [extractLoop] at h
    cases hstep : extractStep ob cb num w st with
    | error e' =>
      rw [hstep] at h
      simp only [Except.error.injEq] at h
      exact h ▸ extractStep_error hstep
    | ok st1 =>
      rw [hstep] at h
      exact extractLoop_error h

/-- C4 (amended): constructing an Annot fails with `ValueError` if and only
if the input text is the empty string.  (A whitespace-only text passes the
`if not text` check and succeeds with zero tokens — see the C4
counterexample — and some non-empty texts fail with `NameError` instead of
succeeding — see C10.) -/
theorem C4_valueError_iff_empty (text ob cb : List Char) :
    mkAnnot text ob cb = Except.error PyError.valueError ↔ text = [] := by
  constructor
  · intro h
    by_contra ht
    simp only [mkAnnot, ht, if_neg, ite_false] at h
    cases hE : extractLoop ob cb 0 (splitWS text) initExtState with
    | ok st => rw [hE] at h; exact absurd h (by simp)
    | error e =>
      rw [hE] at h
      simp only [Except.error.injEq] at h
      have := extractLoop_error hE
      rw [h] at this
      exact absurd this (by simp)
  · intro h
    rw [h]
    rfl

/-- C5 (amended): `ngreement` does return the explicit `0.0` default
whenever the reference maximum score is zero, but
`levenshtein_incl_normalized` is not total: it raises `ZeroDivisionError`
(modelled as `none`) exactly when both annotations have zero annotated
groups, rather than returning a numeric default. -/
theorem C5_defaults (a1 a2 : Annot) (ref comp : List (List ℕ)) (n : ℕ)
    (hmax : (ref.map (fun g => g.length ^ n)).sum = 0) :
    ngreement ref comp n = 0 ∧
    (levenshtein_incl_normalized a1 a2 = none ↔
      a1.annotated_indices_groups = [] ∧ a2.annotated_indices_groups = []) := by
  constructor
  · rw [ngreement]
    simp only [hmax, ite_true, if_pos]
  · by_cases hz : a1.annotated_indices_groups.length + a2.annotated_indices_groups.length = 0
    · have h1 : a1.annotated_indices_groups = [] := List.length_eq_zero.mp (by omega)
      have h2 : a2.annotated_indices_groups = [] := List.length_eq_zero.mp (by omega)
      simp [levenshtein_incl_normalized, hz, h1, h2]
    · simp only [levenshtein_incl_normalized, hz, ite_false, if_neg]
      constructor
      · intro h
        exact absurd h (by simp)
      · rintro ⟨h1, h2⟩
        rw [h1, h2] at hz
        simp at hz

theorem C5_defaults_witness :
    ngreement [] [[0]] 2 = 0 ∧
    (levenshtein_incl_normalized annAB annAB = none ↔
      annAB.annotated_indices_groups = [] ∧ annAB.annotated_indices_groups = []) :=
  C5_defaults annAB annAB [] [[0]] 2 rfl

/-- C2 (amended): whenever at least one annotation has an annotated group,
`levenshtein_incl_normalized` returns the absolute distance together with
the distance divided by the MEAN `(m1 + m2) / 2` of the two group-list
lengths (equivalently `2·d / (m1 + m2)`), not by their maximum. -/
theorem C2_normalized_mean (a1 a2 : Annot)
    (h : a1.annotated_indices_groups.length + a2.annotated_indices_groups.length ≠ 0) :
    levenshtein_incl_normalized a1 a2 =
      some (levenshtein a1.annotated_indices_groups a2.annotated_indices_groups,
        2 * (levenshtein a1.annotated_indices_groups a2.annotated_indices_groups : ℚ) /
          ((a1.annotated_indices_groups.length : ℚ) +
            (a2.annotated_indices_groups.length : ℚ))) := by
  rw [levenshtein_incl_normalized]
  simp only [h, ite_false, if_neg]
  congr 1
  rw [Prod.mk.injEq]
  refine ⟨rfl, ?_⟩
  rw [div_div_eq_mul_div, mul_comm]

theorem C2_normalized_mean_witness :
    levenshtein_incl_normalized annT1 annT2 =
      some (levenshtein annT1.annotated_indices_groups annT2.annotated_indices_groups,
        2 * (levenshtein annT1.annotated_indices_groups annT2.annotated_indices_groups : ℚ) /
          ((annT1.annotated_indices_groups.length : ℚ) +
            (annT2.annotated_indices_groups.length : ℚ))) :=
  C2_normalized_mean annT1 annT2 (by decide)

/-- C1 (amended): there is no `1.0` override in `mean_ngreement`.  When
both annotations of an agreement pair have zero annotated groups, the two
annotated-side directional scores default to `0.0`; if the two annotations
agree on their (nonempty) non-annotated singleton groups, the result is
`(0 + 0 + 1 + 1) / 4 = 0.5`, for every exponent `n`. -/
theorem C1_no_override (t1 t2 ob1 cb1 ob2 cb2 : List Char) (a1 a2 : Annot) (n : ℕ)
    (h1 : mkAnnot t1 ob1 cb1 = Except.ok a1) (h2 : mkAnnot t2 ob2 cb2 = Except.ok a2)
    (hlen : a1.text_split.length = a2.text_split.length)
    (hz1 : a1.annotated_indices_groups = []) (hz2 : a2.annotated_indices_groups = [])
    (hnn : a1.not_annotated_indices_groups = a2.not_annotated_indices_groups)
    (hnz : a1.not_annotated_indices_groups ≠ []) :
    mean_ngreement a1 a2 n = 1 / 2 := by
  obtain ⟨hne1, _, _, hsn1, _⟩ := mkAnnot_GInv h1
  have hself : ngreement a1.not_annotated_indices_groups
      a1.not_annotated_indices_groups n = 1 :=
    ngreement_self n hnz (fun g hg => hne1 g (List.mem_append.mpr (Or.inr hg))) hsn1
  simp only [mean_ngreement, hz1, hz2, ← hnn, hself]
  norm_num [ngreement]

theorem C1_no_override_witness : mean_ngreement annAB annAB 2 = 1 / 2 :=
  C1_no_override txtAB txtAB defOB defCB defOB defCB annAB annAB 2 (by decide) (by decide)
    rfl rfl rfl rfl (by decide)

/-- C7 (amended): for a pair of Annotations built from the same text with
identical brackets (hence equal), `mean_ngreement` (n = 2) equals `1.0`
provided both the annotated and the non-annotated group lists are nonempty;
when either list is empty its two directional scores default to `0.0` and
the mean drops to `0.5` (see the C7 counterexample). -/
theorem C7_self_agreement (text ob cb : List Char) (a : Annot)
    (hok : mkAnnot text ob cb = Except.ok a)
    (h1 : a.annotated_indices_groups ≠ []) (h2 : a.not_annotated_indices_groups ≠ []) :
    mean_ngreement a a 2 = 1 := by
  obtain ⟨hne, _, hsa, hsn, _⟩ := mkAnnot_GInv hok
  have e1 := ngreement_self 2 h1 (fun g hg => hne g (List.mem_append.mpr (Or.inl hg))) hsa
  have e2 := ngreement_self 2 h2 (fun g hg => hne g (List.mem_append.mpr (Or.inr hg))) hsn
  simp only [mean_ngreement, e1, e2]
  norm_num

theorem C7_self_agreement_witness : mean_ngreement annW annW 2 = 1 :=
  C7_self_agreement txtW defOB defCB annW (by decide) (by decide) (by decide)


theorem sdiff2_eq_empty_iff {s t : Finset ℕ} : sdiff2 s t = ∅ ↔ s = t := by
  rw [sdiff2, Finset.union_eq_empty, Finset.sdiff_eq_empty_iff_subset,
    Finset.sdiff_eq_empty_iff_subset]
  constructor
  · rintro ⟨hst, hts⟩
    exact Finset.Subset.antisymm hst hts
  · rintro rfl
    exact ⟨Finset.Subset.refl _, Finset.Subset.refl _⟩

/-- C8 (amended): on every agreement pair with at least one token,
`naive_accuracy` returns `(|A∩B| + (N − |A∩B| − |A ⊕ B|)) / N`, which lies
in `[0,1]` and equals `1.0` iff the two annotated-index sets are equal.
(The token-count hypothesis is needed: a pair of whitespace-only texts has
zero tokens and `naive_accuracy` then raises `ZeroDivisionError` — see the
C8 counterexample.) -/
theorem C8_accuracy (t1 t2 ob1 cb1 ob2 cb2 : List Char) (a1 a2 : Annot)
    (h1 : mkAnnot t1 ob1 cb1 = Except.ok a1) (h2 : mkAnnot t2 ob2 cb2 = Except.ok a2)
    (hlen : a1.text_split.length = a2.text_split.length)
    (hN : 0 < a1.text_split.length) :
    naive_accuracy a1 a2 =
      some ((((a1.annotated_indices ∩ a2.annotated_indices).card : ℚ) +
          ((a1.text_split.length : ℚ) -
            ((a1.annotated_indices ∩ a2.annotated_indices).card : ℚ) -
            ((sdiff2 a1.annotated_indices a2.annotated_indices).card : ℚ))) /
        (a1.text_split.length : ℚ)) ∧
    (∀ q : ℚ, naive_accuracy a1 a2 = some q →
      0 ≤ q ∧ q ≤ 1 ∧ (q = 1 ↔ a1.annotated_indices = a2.annotated_indices)) := by
  obtain ⟨-, -, -, -, hA⟩ := mkAnnot_GInv h1
  obtain ⟨-, -, -, -, hB⟩ := mkAnnot_GInv h2
  rw [← hlen] at hB
  have hsub : sdiff2 a1.annotated_indices a2.annotated_indices ⊆
      Finset.range a1.text_split.length :=
    Finset.union_subset (Finset.Subset.trans (Finset.sdiff_subset) hA)
      (Finset.Subset.trans (Finset.sdiff_subset) hB)
  have hd : (sdiff2 a1.annotated_indices a2.annotated_indices).card ≤
      a1.text_split.length := by
    have := Finset.card_le_card hsub
    simpa [Finset.card_range] using this
  have hN0 : ((a1.text_split.length : ℚ)) ≠ 0 := by
    exact_mod_cast Nat.pos_iff_ne_zero.mp hN
  have hval : naive_accuracy a1 a2 =
      some (((a1.text_split.length : ℚ) -
        ((sdiff2 a1.annotated_indices a2.annotated_indices).card : ℚ)) /
        (a1.text_split.length : ℚ)) := by
    simp only [naive_accuracy, naive_count_agreement]
    rw [if_neg (by omega)]
    congr 1
    push_cast
    ring
  constructor
  · rw [hval]
    congr 1
    ring
  · intro q hq
    rw [hval, Option.some.injEq] at hq
    subst hq
    refine ⟨?_, ?_, ?_⟩
    · apply div_nonneg
      · rw [sub_nonneg]
        exact_mod_cast hd
      · exact_mod_cast Nat.zero_le _
    · rw [div_le_one (by positivity)]
      have : (0 : ℚ) ≤ ((sdiff2 a1.annotated_indices a2.annotated_indices).card : ℚ) := by
        exact_mod_cast Nat.zero_le _
      linarith
    · rw [div_eq_one_iff_eq hN0, sub_eq_self]
      rw [show (((sdiff2 a1.annotated_indices a2.annotated_indices).card : ℚ) = 0 ↔
        (sdiff2 a1.annotated_indices a2.annotated_indices).card = 0) from by
          exact_mod_cast Iff.rfl]
      rw [Finset.card_eq_zero]
      exact sdiff2_eq_empty_iff

theorem C8_accuracy_witness :
    naive_accuracy annW annW =
      some ((((annW.annotated_indices ∩ annW.annotated_indices).card : ℚ) +
          ((annW.text_split.length : ℚ) -
            ((annW.annotated_indices ∩ annW.annotated_indices).card : ℚ) -
            ((sdiff2 annW.annotated_indices annW.annotated_indices).card : ℚ))) /
        (annW.text_split.length : ℚ)) ∧
    (∀ q : ℚ, naive_accuracy annW annW = some q →
      0 ≤ q ∧ q ≤ 1 ∧ (q = 1 ↔ annW.annotated_indices = annW.annotated_indices)) :=
  C8_accuracy txtW txtW defOB defCB defOB defCB annW annW (by decide) (by decide)
    rfl (by decide)


/-!
Symmetry of the group-alignment distance on interval groups (C6).
-/

theorem is_compatible_iff {r c : List ℕ} :
    is_compatible r c = true ↔ ∃ x, x ∈ c ∧ x ∈ r := by
  simp [is_compatible, List.any_eq_true]

theorem is_compatible_comm (r c : List ℕ) : is_compatible r c = is_compatible c r := by
  cases hrc : is_compatible r c with
  | true =>
    obtain ⟨x, hxc, hxr⟩ := is_compatible_iff.mp hrc
    exact (is_compatible_iff.mpr ⟨x, hxr, hxc⟩).symm
  | false =>
    cases hcr : is_compatible c r with
    | false => rfl
    | true =>
      obtain ⟨x, hxr, hxc⟩ := is_compatible_iff.mp hcr
      have htr : is_compatible r c = true := is_compatible_iff.mpr ⟨x, hxc, hxr⟩
      rw [hrc] at htr
      exact absurd htr (by simp)

theorem groupScan_none {g : List ℕ} :
    ∀ {h : List ℕ} {n : ℕ}, groupScan g n h = none → ∀ x ∈ h, x ∈ g
  | [], _, _ => by simp
  | x :: xs, n, hsc => by
    rw [groupScan] at hsc
    by_cases hx : x ∈ g
    · rw [if_pos hx] at hsc
      intro y hy
      rcases List.mem_cons.mp hy with hy | hy
      · exact hy ▸ hx
      · exact groupScan_none hsc y hy
    · rw [if_neg hx] at hsc
      exact absurd hsc (by simp)

theorem groupScan_ge {g : List ℕ} :
    ∀ {h : List ℕ} {n k : ℕ}, groupScan g n h = some k → n ≤ k
  | [], _, _, hsc => by simp [groupScan] at hsc
  | x :: xs, n, k, hsc => by
    rw [groupScan] at hsc
    by_cases hx : x ∈ g
    · rw [if_pos hx] at hsc
      exact le_trans (Nat.le_succ n) (groupScan_ge hsc)
    · rw [if_neg hx] at hsc
      simp only [Option.some.injEq] at hsc
      omega

theorem boundaryGo_ge (g : List ℕ) :
    ∀ (l : List (List ℕ)) (num1 : ℕ), num1 ≤ boundaryGo g num1 l
  | [], num1 => le_refl _
  | h :: t, num1 => by
    rw [boundaryGo]
    cases hsc : groupScan g 0 h with
    | none => exact le_trans (Nat.le_succ num1) (boundaryGo_ge g t (num1 + 1))
    | some k =>
      cases k with
      | zero => exact le_refl _
      | succ k' => exact Nat.le_succ num1

theorem boundary_eq_zero_iff {g h : List ℕ} {t : List (List ℕ)} (hh : h ≠ []) :
    find_compatible_index_boundary g (h :: t) = 0 ↔ h.headD 0 ∉ g := by
  cases h with
  | nil => exact absurd rfl hh
  | cons x xs =>
    constructor
    · intro hb hx
      simp only [List.headD_cons] at hx
      rw [find_compatible_index_boundary] at hb
      cases hsc : groupScan g 0 (x :: xs) with
      | none =>
        simp [boundaryGo, hsc] at hb
        have hge := boundaryGo_ge g t 1
        omega
      | some k =>
        have hk0 : groupScan g 0 (x :: xs) = groupScan g 1 xs := by
          rw [groupScan, if_pos hx]
        rw [hk0] at hsc
        have hk := groupScan_ge hsc
        rw [← hk0] at hsc
        cases k with
        | zero => omega
        | succ k' => simp [boundaryGo, hsc] at hb
    · intro hx
      simp only [List.headD_cons] at hx
      have hsc : groupScan g 0 (x :: xs) = some 0 := by
        rw [groupScan, if_neg hx]
      rw [find_compatible_index_boundary]
      simp [boundaryGo, hsc]
theorem boundary_ge_two {g h : List ℕ} {t : List (List ℕ)}
    (hb : 2 ≤ find_compatible_index_boundary g (h :: t)) : ∀ x ∈ h, x ∈ g := by
  rw [find_compatible_index_boundary] at hb
  cases hsc : groupScan g 0 h with
  | none => exact groupScan_none hsc
  | some k =>
    exfalso
    cases k with
    | zero => simp [boundaryGo, hsc] at hb
    | succ k' => simp [boundaryGo, hsc] at hb

theorem mem_interval {g : List ℕ} (h : IsIntervalG g) {x : ℕ} :
    x ∈ g ↔ headFst g ≤ x ∧ x < headFst g + g.length := by
  conv_lhs => rw [h.2]
  exact List.mem_range'_1

theorem interval_eq_of_subset_subset {r c : List ℕ} (hr : IsIntervalG r)
    (hc : IsIntervalG c) (h1 : ∀ x ∈ r, x ∈ c) (h2 : ∀ x ∈ c, x ∈ r) : r = c := by
  have hrne : 0 < r.length := List.length_pos.mpr hr.1
  have hcne : 0 < c.length := List.length_pos.mpr hc.1
  have hrhead : headFst r ∈ r := headFst_mem hr.1
  have hchead : headFst c ∈ c := headFst_mem hc.1
  have hb1 := (mem_interval hc).mp (h1 (headFst r) hrhead)
  have hb2 := (mem_interval hr).mp (h2 (headFst c) hchead)
  have hhead : headFst r = headFst c := by omega
  have hrl : headFst r + (r.length - 1) ∈ r := (mem_interval hr).mpr (by omega)
  have hcl : headFst c + (c.length - 1) ∈ c := (mem_interval hc).mpr (by omega)
  have ht1 := (mem_interval hc).mp (h1 _ hrl)
  have ht2 := (mem_interval hr).mp (h2 _ hcl)
  have hlen : r.length = c.length := by omega
  rw [hr.2, hc.2, hhead, hlen]

theorem compatible_not_both_zero {r c : List ℕ} (hr : IsIntervalG r) (hc : IsIntervalG c)
    (hcompat : is_compatible r c = true) :
    ¬(r.headD 0 ∉ c ∧ c.headD 0 ∉ r) := by
  rintro ⟨h1, h2⟩
  obtain ⟨x, hxc, hxr⟩ := is_compatible_iff.mp hcompat
  have hbr := (mem_interval hr).mp hxr
  have hbc := (mem_interval hc).mp hxc
  have hr0 : r.headD 0 ∈ r := headFst_mem hr.1
  have hc0 : c.headD 0 ∈ c := headFst_mem hc.1
  have hnr := (mem_interval hc).not.mp h1
  have hnc := (mem_interval hr).not.mp h2
  simp only [not_and, not_lt, headFst] at hnr hnc
  by_cases hle : c.headD 0 ≤ r.headD 0
  · have := hnr hle
    simp only [headFst] at hbr hbc
    omega
  · have hle2 : r.headD 0 ≤ c.headD 0 := by omega
    have := hnc hle2
    simp only [headFst] at hbr hbc
    omega

theorem transform_groups_cost_single_comm (r c : List ℕ) :
    transform_groups_cost c [r] = transform_groups_cost r [c] := by
  simp only [transform_groups_cost, List.foldl_cons, List.foldl_nil, Finset.empty_union,
    List.length_cons, List.length_nil, sdiff2]
  rw [Finset.union_comm]

theorem levFuel_symm : ∀ (fuel : ℕ) (ref comp : List (List ℕ)),
    ref.length + comp.length ≤ fuel →
    (∀ g ∈ ref, IsIntervalG g) → (∀ g ∈ comp, IsIntervalG g) →
    levFuel fuel ref comp = levFuel fuel comp ref := by
  intro fuel
  induction fuel with
  | zero =>
    intro ref comp h _ _
    have h1 : ref = [] := List.length_eq_zero.mp (by omega)
    have h2 : comp = [] := List.length_eq_zero.mp (by omega)
    subst h1; subst h2; rfl
  | succ f ih =>
    intro ref comp h hr hc
    match ref, comp with
    | [], [] => rfl
    | [], c :: cs => rfl
    | r :: rs, [] => rfl
    | r :: rs, c :: cs =>
      have hrint : IsIntervalG r := hr r (List.mem_cons_self r rs)
      have hcint : IsIntervalG c := hc c (List.mem_cons_self c cs)
      have hrs : ∀ g ∈ rs, IsIntervalG g := fun g hg => hr g (List.mem_cons_of_mem r hg)
      have hcs : ∀ g ∈ cs, IsIntervalG g := fun g hg => hc g (List.mem_cons_of_mem c hg)
      have hlen : rs.length + 1 + (cs.length + 1) ≤ f + 1 := by
        simpa using h
      simp only [levFuel]
      by_cases heq : r = c
      · rw [if_pos heq, if_pos heq.symm]
        exact ih rs cs (by omega) hrs hcs
      · rw [if_neg heq, if_neg (Ne.symm heq)]
        by_cases hcompat : is_compatible r c = true
        · have hcompat2 : is_compatible c r = true := by
            rw [← is_compatible_comm]
            exact hcompat
          rw [if_pos hcompat, if_pos hcompat2]
          rcases lt_trichotomy (find_compatible_index_boundary c (r :: rs))
            (find_compatible_index_boundary r (c :: cs)) with hlt | heqb | hgt
          · have hnlt : ¬(find_compatible_index_boundary r (c :: cs) <
                find_compatible_index_boundary c (r :: rs)) := by omega
            rw [if_pos hlt, if_neg hnlt]
            congr 1
            have hd : ((c :: cs).drop (find_compatible_index_boundary r (c :: cs))).length
                = cs.length + 1 - find_compatible_index_boundary r (c :: cs) := by
              simp [List.length_drop]
            exact ih rs ((c :: cs).drop (find_compatible_index_boundary r (c :: cs)))
              (by omega) hrs (fun g hg => hc g (List.drop_subset _ _ hg))
          · rw [heqb, if_neg (lt_irrefl _), if_neg (lt_irrefl _)]
            -- equal boundaries: show they are exactly 1
            have hb0 : ¬(find_compatible_index_boundary r (c :: cs) = 0) := by
              intro h0
              have hz1 : r.headD 0 ∉ c := (boundary_eq_zero_iff hrint.1).mp (heqb.trans h0)
              have hz2 : c.headD 0 ∉ r := (boundary_eq_zero_iff hcint.1).mp h0
              exact compatible_not_both_zero hrint hcint hcompat ⟨hz1, hz2⟩
            have hb2 : ¬(2 ≤ find_compatible_index_boundary r (c :: cs)) := by
              intro h2le
              have hsub1 : ∀ x ∈ c, x ∈ r := boundary_ge_two h2le
              have hsub2 : ∀ x ∈ r, x ∈ c :=
                boundary_ge_two (le_of_le_of_eq h2le heqb.symm)
              exact heq (interval_eq_of_subset_subset hrint hcint hsub2 hsub1)
            have hb1 : find_compatible_index_boundary r (c :: cs) = 1 := by omega
            rw [hb1]
            simp only [List.take_succ_cons, List.take_zero, List.drop_succ_cons,
              List.drop_zero]
            rw [transform_groups_cost_single_comm]
            congr 1
            exact ih rs cs (by omega) hrs hcs
          · have hnlt : ¬(find_compatible_index_boundary c (r :: rs) <
                find_compatible_index_boundary r (c :: cs)) := by omega
            rw [if_neg hnlt, if_pos hgt]
            congr 1
            have hd : ((r :: rs).drop (find_compatible_index_boundary c (r :: rs))).length
                = rs.length + 1 - find_compatible_index_boundary c (r :: rs) := by
              simp [List.length_drop]
            exact ih ((r :: rs).drop (find_compatible_index_boundary c (r :: rs))) cs
              (by omega) (fun g hg => hr g (List.drop_subset _ _ hg)) hcs
        · have hcompat2 : ¬(is_compatible c r = true) := by
            rw [← is_compatible_comm]
            exact hcompat
          rw [if_neg hcompat, if_neg hcompat2]
          have hhead : headFst r ≠ headFst c := by
            intro hh
            apply hcompat
            refine is_compatible_iff.mpr ⟨headFst c, headFst_mem hcint.1, ?_⟩
            rw [← hh]
            exact headFst_mem hrint.1
          by_cases hlt : headFst r < headFst c
          · have hnlt : ¬(headFst c < headFst r) := by omega
            rw [if_pos hlt, if_neg hnlt]
            congr 1
            exact ih rs (c :: cs) (by simp only [List.length_cons]; omega) hrs hc
          · have hlt2 : headFst c < headFst r := by omega
            rw [if_neg hlt, if_pos hlt2]
            congr 1
            exact (ih cs (r :: rs) (by simp only [List.length_cons]; omega) hcs hr).symm

/-- C6 (amended): the group-alignment distance is symmetric on every pair
of sequences whose groups are nonempty ascending contiguous intervals (the
shape of markable groups); the sequences need not even be sorted by first
index.  Without contiguity, symmetry can fail (see the C6 counterexample,
where both leading first indices are missing from the other group). -/
theorem C6_symm_intervals (ref comp : List (List ℕ))
    (h1 : ∀ g ∈ ref, IsIntervalG g) (h2 : ∀ g ∈ comp, IsIntervalG g) :
    levenshtein ref comp = levenshtein comp ref := by
  rw [levenshtein, levenshtein, Nat.add_comm comp.length ref.length]
  exact levFuel_symm (ref.length + comp.length) ref comp (le_refl _) h1 h2

theorem C6_symm_intervals_witness :
    levenshtein [[0, 1]] [[1, 2], [5]] = levenshtein [[1, 2], [5]] [[0, 1]] :=
  C6_symm_intervals [[0, 1]] [[1, 2], [5]] (by decide) (by decide)


/-!
The exact-cover invariant of extraction on well-bracketed token sequences,
and the partition theorem (C3).
-/

theorem coverCount_append (l1 l2 : List (List ℕ)) (i : ℕ) :
    coverCount (l1 ++ l2) i = coverCount l1 i + coverCount l2 i := by
  simp [coverCount]

theorem coverCount_single (g : List ℕ) (i : ℕ) :
    coverCount [g] i = g.count i := by
  simp [coverCount]

theorem count_single (i num : ℕ) : [num].count i = if i = num then 1 else 0 := by
  by_cases h : i = num <;> simp [h]

theorem coverCount_pos_of_mem {l : List (List ℕ)} {h : List ℕ} {x : ℕ}
    (hm : h ∈ l) (hx : x ∈ h) : 0 < coverCount l x := by
  induction l with
  | nil => simp at hm
  | cons g t ih =>
    rw [show coverCount (g :: t) x = g.count x + coverCount t x from by simp [coverCount]]
    rcases List.mem_cons.mp hm with hm | hm
    · have : 0 < g.count x := List.count_pos_iff_mem.mpr (hm ▸ hx)
      omega
    · have := ih hm
      omega

theorem disjoint_of_cover {l : List (List ℕ)} (h : ∀ i, coverCount l i ≤ 1) :
    disjointGroups l := by
  induction l with
  | nil => exact List.Pairwise.nil
  | cons g t ih =>
    refine List.pairwise_cons.mpr ⟨?_, ?_⟩
    · intro h' hh' x hx hx'
      have h1 : 0 < g.count x := List.count_pos_iff_mem.mpr hx
      have h2 : 0 < coverCount t x := coverCount_pos_of_mem hh' hx'
      have h3 := h x
      rw [show coverCount (g :: t) x = g.count x + coverCount t x from by
        simp [coverCount]] at h3
      omega
    · refine ih ?_
      intro i
      have h3 := h i
      rw [show coverCount (g :: t) i = g.count i + coverCount t i from by
        simp [coverCount]] at h3
      omega

/-- Index occurrences of the still-open group. -/
def openCount (st : ExtState) (i : ℕ) : ℕ :=
  if st.in_brackets then (st.group.getD []).count i else 0

/-- On well-bracketed input, the emitted groups plus the open group cover
each processed index exactly once. -/
structure CovInv (num : ℕ) (st : ExtState) : Prop where
  cover : ∀ i : ℕ,
    coverCount (st.annotated_indices_groups ++ st.not_annotated_indices_groups) i
      + openCount st i = if i < num then 1 else 0
  someWhenIn : st.in_brackets = true → ∃ g, st.group = some g

theorem CovInv_init : CovInv 0 initExtState := by
  refine ⟨?_, ?_⟩
  · intro i
    simp [initExtState, coverCount, openCount]
  · intro h
    simp [initExtState] at h

theorem extractLoop_CovInv {ob cb : List Char} :
    ∀ (ws : List (List Char)) (num : ℕ) (st st' : ExtState),
      wfTokens ob cb st.in_brackets ws = true →
      extractLoop ob cb num ws st = Except.ok st' →
      CovInv num st →
      CovInv (num + ws.length) st' ∧ st'.in_brackets = false
  | [], num, st, st', hwf, h, hinv => by
    simp only [wfTokens, Bool.not_eq_true'] at hwf
    simp only [extractLoop, Except.ok.injEq] at h
    subst h
    exact ⟨by simpa using hinv, hwf⟩
  | w :: ws, num, st, st', hwf, h, hinv => by
    simp only [extractLoop] at h
    by_cases hs : startsWith w ob = true
    · -- opening token: well-bracketing forces OUTSIDE
      have hb' : st.in_brackets = false := by
        cases hbv : st.in_brackets
        · rfl
        · rw [wfTokens, if_pos hs, hbv] at hwf
          simp at hwf
      rw [wfTokens, if_pos hs, hb'] at hwf
      simp only [Bool.false_eq_true, if_neg, ite_false] at hwf
      by_cases hc : closesHere cb w = true
      · -- single-token markable
        have hstep : extractStep ob cb num w st = Except.ok
            { st with in_brackets := false, group := some [num],
                      annotated_indices := insert num st.annotated_indices,
                      annotated_indices_groups :=
                        st.annotated_indices_groups ++ [[num]] } := by
          simp [extractStep, hs, hb', hc]
        rw [hstep] at h
        rw [if_pos hc] at hwf
        have hinv' : CovInv (num + 1)
            { st with in_brackets := false, group := some [num],
                      annotated_indices := insert num st.annotated_indices,
                      annotated_indices_groups :=
                        st.annotated_indices_groups ++ [[num]] } := by
          refine ⟨?_, ?_⟩
          · intro i
            have hold := hinv.cover i
            simp only [openCount, hb', ite_false, Bool.false_eq_true, add_zero,
              List.append_assoc, coverCount_append, coverCount_single, count_single,
              Option.getD_some] at hold ⊢
            split_ifs at hold ⊢ <;> omega
          · intro hcontra
            simp at hcontra
        have := extractLoop_CovInv ws (num + 1) _ st' (by simpa using hwf) h hinv'
        rw [show num + 1 + ws.length = num + (w :: ws).length from by
          simp [List.length_cons]; omega] at this
        exact this
      · -- opening without closing: now INSIDE with group [num]
        have hc' : closesHere cb w = false := by simpa using hc
        have hstep : extractStep ob cb num w st = Except.ok
            { st with in_brackets := true, group := some [num],
                      annotated_indices := insert num st.annotated_indices } := by
          simp [extractStep, hs, hb', hc']
        rw [hstep] at h
        rw [if_neg hc] at hwf
        have hinv' : CovInv (num + 1)
            { st with in_brackets := true, group := some [num],
                      annotated_indices := insert num st.annotated_indices } := by
          refine ⟨?_, fun _ => ⟨[num], rfl⟩⟩
          intro i
          have hold := hinv.cover i
          simp only [openCount, hb', ite_false, ite_true, Bool.false_eq_true, add_zero,
            List.append_assoc, coverCount_append, coverCount_single, count_single,
            Option.getD_some] at hold ⊢
          split_ifs at hold ⊢ <;> omega
        have := extractLoop_CovInv ws (num + 1) _ st' (by simpa using hwf) h hinv'
        rw [show num + 1 + ws.length = num + (w :: ws).length from by
          simp [List.length_cons]; omega] at this
        exact this
    · have hs' : startsWith w ob = false := by simpa using hs
      rw [wfTokens, hs'] at hwf
      simp only [Bool.false_eq_true, if_neg, ite_false] at hwf
      by_cases hc : closesHere cb w = true
      · -- closing token: well-bracketing forces INSIDE
        rw [if_pos hc, Bool.and_eq_true] at hwf
        obtain ⟨hb, hwf'⟩ := hwf
        obtain ⟨g, hg⟩ := hinv.someWhenIn hb
        have hstep : extractStep ob cb num w st = Except.ok
            { st with in_brackets := false, group := some (g ++ [num]),
                      annotated_indices := insert num st.annotated_indices,
                      annotated_indices_groups :=
                        st.annotated_indices_groups ++ [g ++ [num]] } := by
          simp [extractStep, hs', hb, hg, hc]
        rw [hstep] at h
        have hinv' : CovInv (num + 1)
            { st with in_brackets := false, group := some (g ++ [num]),
                      annotated_indices := insert num st.annotated_indices,
                      annotated_indices_groups :=
                        st.annotated_indices_groups ++ [g ++ [num]] } := by
          refine ⟨?_, ?_⟩
          · intro i
            have hold := hinv.cover i
            simp only [openCount, hb, ite_true, ite_false, Bool.false_eq_true, hg,
              Option.getD_some, add_zero, List.append_assoc, coverCount_append,
              coverCount_single, List.count_append, count_single] at hold ⊢
            split_ifs at hold ⊢ <;> omega
          · intro hcontra
            simp at hcontra
        have := extractLoop_CovInv ws (num + 1) _ st' (by simpa using hwf') h hinv'
        rw [show num + 1 + ws.length = num + (w :: ws).length from by
          simp [List.length_cons]; omega] at this
        exact this
      · have hc' : closesHere cb w = false := by simpa using hc
        rw [if_neg hc] at hwf
        by_cases hb : st.in_brackets = true
        · -- INSIDE, no close: extend the open group
          obtain ⟨g, hg⟩ := hinv.someWhenIn hb
          have hstep : extractStep ob cb num w st = Except.ok
              { st with group := some (g ++ [num]),
                        annotated_indices := insert num st.annotated_indices } := by
            simp [extractStep, hs', hb, hg, hc']
          rw [hstep] at h
          have hinv' : CovInv (num + 1)
              { st with group := some (g ++ [num]),
                        annotated_indices := insert num st.annotated_indices } := by
            refine ⟨?_, fun _ => ⟨g ++ [num], rfl⟩⟩
            intro i
            have hold := hinv.cover i
            simp only [openCount, hb, ite_true, hg, Option.getD_some,
              List.count_append, count_single, coverCount_append] at hold ⊢
            split_ifs at hold ⊢ <;> omega
          have := extractLoop_CovInv ws (num + 1) _ st'
            (by simpa [hb] using hwf) h hinv'
          rw [show num + 1 + ws.length = num + (w :: ws).length from by
            simp [List.length_cons]; omega] at this
          exact this
        · -- OUTSIDE, plain token: singleton group
          have hb' : st.in_brackets = false := by
            cases hbv : st.in_brackets
            · rfl
            · exact absurd hbv hb
          have hstep : extractStep ob cb num w st = Except.ok
              { st with not_annotated_indices_groups :=
                          st.not_annotated_indices_groups ++ [[num]] } := by
            simp [extractStep, hs', hb', hc']
          rw [hstep] at h
          have hinv' : CovInv (num + 1)
              { st with not_annotated_indices_groups :=
                          st.not_annotated_indices_groups ++ [[num]] } := by
            refine ⟨?_, fun hcontra => hinv.someWhenIn hcontra⟩
            intro i
            have hold := hinv.cover i
            simp only [openCount, hb', ite_false, Bool.false_eq_true, add_zero,
              coverCount_append, coverCount_single, count_single] at hold ⊢
            split_ifs at hold ⊢ <;> omega
          have := extractLoop_CovInv ws (num + 1) _ st'
            (by simpa [hb'] using hwf) h hinv'
          rw [show num + 1 + ws.length = num + (w :: ws).length from by
            simp [List.length_cons]; omega] at this
          exact this

/-- C3 (amended): for every text whose token sequence is well-bracketed —
no nested opening, no closing-bracket match while no group is open, and no
group left open at the end — successful extraction partitions the token
indices exactly once across annotated and non-annotated groups, with both
lists sorted by first index.  (For other texts the claim fails: see the C3
counterexample, where a stray closing bracket makes extraction append a
group twice and drop a token from every group.) -/
theorem C3_partition (text ob cb : List Char) (a : Annot)
    (hwf : wfTokens ob cb false (splitWS text) = true)
    (hok : mkAnnot text ob cb = Except.ok a) : partitionOK a := by
  obtain ⟨-, -, hsa, hsn, -⟩ := mkAnnot_GInv hok
  by_cases ht : text = []
  · simp [mkAnnot, ht] at hok
  · simp only [mkAnnot, ht, if_neg, ite_false] at hok
    cases hE : extractLoop ob cb 0 (splitWS text) initExtState with
    | error e => rw [hE] at hok; exact absurd hok (by simp)
    | ok st =>
      rw [hE] at hok
      rw [Except.ok.injEq] at hok
      have hwf0 : wfTokens ob cb initExtState.in_brackets (splitWS text) = true := hwf
      obtain ⟨hcov, hfin⟩ :=
        extractLoop_CovInv (splitWS text) 0 initExtState st hwf0 hE CovInv_init
      have hcover : ∀ i : ℕ, coverCount (allG a) i =
          if i < a.text_split.length then 1 else 0 := by
        intro i
        have hci := hcov.cover i
        simp only [openCount, hfin, ite_false, Bool.false_eq_true, add_zero,
          Nat.zero_add] at hci
        subst hok
        exact hci
      refine ⟨hcover, ?_, ?_, ?_⟩
      · refine disjoint_of_cover ?_
        intro i
        rw [hcover i]
        by_cases h1 : i < a.text_split.length <;> simp [h1]
      · exact hsa
      · exact hsn

theorem C3_partition_witness :
    wfTokens defOB defCB false (splitWS txtW) = true ∧ partitionOK annW :=
  ⟨by decide, C3_partition txtW defOB defCB annW (by decide) (by decide)⟩

end IAA
